import Mathlib

/-!
Verification development for the `genjwk` source-synthesis engine
(`tools/cmd/genjwk/main.go`).

The program is a schema-driven code generator: from a field/object/key-type
model it synthesizes, per key-type variant, a struct with one storage slot per
static field plus an open extension map (`privateParams`), together with
generic `Get`/`Set`/`Remove` accessors and a canonical JSON codec.

This file gives a shallow embedding of
  * the generator's pure derivation functions (`fieldStorageTypeIsIndirect`,
    constant derivation in `generateKeyType`), and
  * the runtime semantics of the code emitted by `generateObject`
    (`makePairs`, `MarshalJSON`, `Get`, `setNoLock`, `Remove`,
    `UnmarshalJSON` including the registry fall-back path),
and proves the behavioural properties claimed of them.

Machine strings are Lean `String`s; byte sequences are `List Nat`; JSON values
are a small deep value universe `JValue`.  External collaborators (the base64
helper, the generic JSON value encoder/decoder, registries and the composite
types' own methods) live outside the generator's source file and are modelled
as concrete executable functions, noted in their doc comments.
-/

namespace GenJWK

/-- Byte-wise (code-point) lexicographic comparison of character lists,
mirroring the string comparison used by Go's `sort.Strings`. -/
def charListLe : List Char → List Char → Bool
  | [], _ => true
  | _ :: _, [] => false
  | a :: as, b :: bs =>
    if a.toNat < b.toNat then true
    else if b.toNat < a.toNat then false
    else charListLe as bs

/-- Lexicographic order on strings (code-point wise). -/
def strLe (a b : String) : Prop := charListLe a.data b.data = true

instance : DecidableRel strLe := fun a b =>
  inferInstanceAs (Decidable (charListLe a.data b.data = true))

theorem char_toNat_inj {a b : Char} (h : a.toNat = b.toNat) : a = b := by
  cases a with
  | mk v hv =>
    cases b with
    | mk w hw =>
      congr 1
      simp only [Char.toNat] at h
      cases v with
      | mk bv =>
        cases w with
        | mk bw =>
          congr 1
          simp only [UInt32.toNat] at h
          exact BitVec.toNat_injective h

theorem string_data_inj {a b : String} (h : a.data = b.data) : a = b := by
  cases a; cases b; congr

theorem charListLe_total : ∀ as bs, charListLe as bs = true ∨ charListLe bs as = true
  | [], [] => Or.inl rfl
  | [], _ :: _ => Or.inl rfl
  | _ :: _, [] => Or.inr rfl
  | a :: as, b :: bs => by
    simp only [charListLe]
    rcases Nat.lt_trichotomy a.toNat b.toNat with h | h | h
    · left
      rw [if_pos h]
    · have h1 : ¬ a.toNat < b.toNat := by omega
      have h2 : ¬ b.toNat < a.toNat := by omega
      rw [if_neg h1, if_neg h2, if_neg h2, if_neg h1]
      exact charListLe_total as bs
    · right
      rw [if_pos h]

theorem charListLe_antisymm : ∀ as bs, charListLe as bs = true →
    charListLe bs as = true → as = bs
  | [], [], _, _ => rfl
  | [], _ :: _, _, h => by simp [charListLe] at h
  | _ :: _, [], h, _ => by simp [charListLe] at h
  | a :: as, b :: bs, h1, h2 => by
    simp only [charListLe] at h1 h2
    rcases Nat.lt_trichotomy a.toNat b.toNat with hlt | heq | hgt
    · have hn : ¬ b.toNat < a.toNat := by omega
      rw [if_neg hn, if_pos hlt] at h2
      exact absurd h2 (by simp)
    · have heq' : a = b := char_toNat_inj heq
      subst heq'
      have hn : ¬ a.toNat < a.toNat := by omega
      rw [if_neg hn, if_neg hn] at h1 h2
      rw [charListLe_antisymm as bs h1 h2]
    · have hn : ¬ a.toNat < b.toNat := by omega
      rw [if_neg hn, if_pos hgt] at h1
      exact absurd h1 (by simp)

theorem charListLe_trans : ∀ as bs cs, charListLe as bs = true →
    charListLe bs cs = true → charListLe as cs = true
  | [], _, _, _, _ => rfl
  | _ :: _, [], _, h1, _ => by simp [charListLe] at h1
  | _ :: _, _ :: _, [], _, h2 => by simp [charListLe] at h2
  | a :: as, b :: bs, c :: cs, h1, h2 => by
    simp only [charListLe] at h1 h2 ⊢
    rcases Nat.lt_trichotomy a.toNat b.toNat with hab | hab | hab
    · rcases Nat.lt_trichotomy b.toNat c.toNat with hbc | hbc | hbc
      · have : a.toNat < c.toNat := by omega
        rw [if_pos this]
      · have : a.toNat < c.toNat := by omega
        rw [if_pos this]
      · have hn : ¬ b.toNat < c.toNat := by omega
        rw [if_neg hn, if_pos hbc] at h2
        exact absurd h2 (by simp)
    · rcases Nat.lt_trichotomy b.toNat c.toNat with hbc | hbc | hbc
      · have : a.toNat < c.toNat := by omega
        rw [if_pos this]
      · have hac : ¬ a.toNat < c.toNat := by omega
        have hca : ¬ c.toNat < a.toNat := by omega
        rw [if_neg hac, if_neg hca]
        have h1' : ¬ a.toNat < b.toNat := by omega
        have h1'' : ¬ b.toNat < a.toNat := by omega
        rw [if_neg h1', if_neg h1''] at h1
        have h2' : ¬ b.toNat < c.toNat := by omega
        have h2'' : ¬ c.toNat < b.toNat := by omega
        rw [if_neg h2', if_neg h2''] at h2
        exact charListLe_trans as bs cs h1 h2
      · have h2' : ¬ b.toNat < c.toNat := by omega
        rw [if_neg h2', if_pos hbc] at h2
        exact absurd h2 (by simp)
    · have h1' : ¬ a.toNat < b.toNat := by omega
      rw [if_neg h1', if_pos hab] at h1
      exact absurd h1 (by simp)

instance : IsTotal String strLe := ⟨fun a b => charListLe_total a.data b.data⟩

instance : IsTrans String strLe :=
  ⟨fun a b c h1 h2 => charListLe_trans a.data b.data c.data h1 h2⟩

instance : IsAntisymm String strLe :=
  ⟨fun a b h1 h2 => string_data_inj (charListLe_antisymm a.data b.data h1 h2)⟩

/-- Sorting a list of strings, mirroring Go's `sort.Strings`. -/
def sortStrings (l : List String) : List String := List.insertionSort strLe l

/-- Runtime value universe for the generated objects.  `vBytes` is a Go
`[]byte`; `vStr` a Go `string`; `vComposite tag enc g` stands for a value of
any other dynamic Go type `tag`, with `enc` its serialization by the generic
JSON value encoder and `g` the result of the value's own `Get()` method when
the type has one (modelled because those composite types live outside the
generator's source file). -/
inductive JValue where
  | vBytes (bs : List Nat)
  | vStr (s : String)
  | vComposite (tag : String) (enc : String) (getResult : Option JValue)
deriving Repr

open JValue

/-- Decidable equality for the runtime value universe (written by hand because
of the nested `Option`). -/
def jvalueDecEq : (a b : JValue) → Decidable (a = b)
  | vBytes x, vBytes y =>
    match decEq x y with
    | isTrue h => isTrue (by rw [h])
    | isFalse h => isFalse (by simp [h])
  | vStr x, vStr y =>
    match decEq x y with
    | isTrue h => isTrue (by rw [h])
    | isFalse h => isFalse (by simp [h])
  | vComposite t e none, vComposite t' e' none =>
    match decEq t t', decEq e e' with
    | isTrue h1, isTrue h2 => isTrue (by rw [h1, h2])
    | isFalse h1, _ => isFalse (by simp [h1])
    | _, isFalse h2 => isFalse (by simp [h2])
  | vComposite t e (some g), vComposite t' e' (some g') =>
    match decEq t t', decEq e e', jvalueDecEq g g' with
    | isTrue h1, isTrue h2, isTrue h3 => isTrue (by rw [h1, h2, h3])
    | isFalse h1, _, _ => isFalse (by simp [h1])
    | _, isFalse h2, _ => isFalse (by simp [h2])
    | _, _, isFalse h3 => isFalse (by simp [h3])
  | vComposite _ _ none, vComposite _ _ (some _) => isFalse (by simp)
  | vComposite _ _ (some _), vComposite _ _ none => isFalse (by simp)
  | vBytes _, vStr _ => isFalse (by simp)
  | vBytes _, vComposite _ _ _ => isFalse (by simp)
  | vStr _, vBytes _ => isFalse (by simp)
  | vStr _, vComposite _ _ _ => isFalse (by simp)
  | vComposite _ _ _, vBytes _ => isFalse (by simp)
  | vComposite _ _ _, vStr _ => isFalse (by simp)

instance : DecidableEq JValue := jvalueDecEq

/-- Dynamic Go type of a runtime value, as used by type switches and type
assertions in the generated code. -/
def tyOf : JValue → String
  | vBytes _ => "[]byte"
  | vStr _ => "string"
  | vComposite tag _ _ => tag

/-- Result of calling the value's own `Get()` method.  Modelled from the spec:
the composite field types implementing the optional get-with-default behaviour
are external to the generator source; a composite carries its `Get()` result
and any other value returns itself. -/
def jGet : JValue → JValue
  | vComposite _ _ (some g) => g
  | v => v

/-- Field metadata, the relevant attributes of a `codegen.Field`:
`name` is the exported spelling `Name(true)`, `lname` the storage spelling
`Name(false)`, `jsonKey` the wire key `JSON()`, `typ` the Go type `Type()`,
and the flags mirror the schema booleans `is_std`, `hasGet`, `hasAccept`,
`required`. -/
structure FieldM where
  name : String
  lname : String
  jsonKey : String
  typ : String
  is_std : Bool
  hasGet : Bool
  hasAccept : Bool
  required : Bool
deriving DecidableEq, Repr

/-- KeyType group metadata: `pfx` is the group's constant-name `Prefix` and
`ktyString` the wire value of the family discriminator (`kt.KeyType`'s
`String()`). -/
structure KeyTypeM where
  pfx : String
  ktyString : String
deriving DecidableEq, Repr

/-- Character-list prefix test (the first argument is the candidate
prefix). -/
def isPrefixOfChars : List Char → List Char → Bool
  | [], _ => true
  | _ :: _, [] => false
  | a :: as, b :: bs => if a = b then isPrefixOfChars as bs else false

/-- Go's `strings.HasPrefix`. -/
def strStartsWith (s p : String) : Bool := isPrefixOfChars p.data s.data

/-- Go's `strings.HasSuffix`. -/
def strEndsWith (s p : String) : Bool := isPrefixOfChars p.data.reverse s.data.reverse

/-- Storage-type indirection rule of the generator
(`fieldStorageTypeIsIndirect` in the source): a type is stored behind a
pointer when it is `KeyOperationList`, or when it is neither a pointer type,
nor a slice type, nor a `List`-suffixed type. -/
def fieldStorageTypeIsIndirect (s : String) : Bool :=
  decide (s = "KeyOperationList") ||
    !(strStartsWith s "*" || strStartsWith s "[]" || strEndsWith s "List")

/-- Storage type of a field (`fieldStorageType` in the source). -/
def fieldStorageType (s : String) : String :=
  if fieldStorageTypeIsIndirect s then "*" ++ s else s

/-- Storage-indirection rule as the specification words it: indirect exactly
when the type is not already a reference/pointer type and not a list type
(byte-sequence and list types stored directly).  Stated for comparison with
`fieldStorageTypeIsIndirect`. -/
def specStorageIndirect (s : String) : Bool :=
  !(strStartsWith s "*" || strStartsWith s "[]" || strEndsWith s "List")

/-- Lookup in a Go-map model (association list). -/
def mapLookup (k : String) : List (String × JValue) → Option JValue
  | [] => none
  | (k', v) :: rest => if k' = k then some v else mapLookup k rest

/-- Go map key deletion `delete(m, k)`. -/
def mapErase (k : String) : List (String × JValue) → List (String × JValue)
  | [] => []
  | (k', v) :: rest => if k' = k then mapErase k rest else (k', v) :: mapErase k rest

/-- Go map assignment `m[k] = v` (last writer wins). -/
def mapInsert (k : String) (v : JValue) (m : List (String × JValue)) :
    List (String × JValue) :=
  mapErase k m ++ [(k, v)]

/-- Alphabet of the base64 encoding. -/
def b64char (n : Nat) : Char :=
  "ABCDEFGHIJKLMNOPQRSTUVWXYZabcdefghijklmnopqrstuvwxyz0123456789+/".data.getD n 'A'

/-- Modelled from the spec: the repository's base64 helper
(`base64.EncodeToString`, outside the generator source) emits byte sequences
as standard base64 text. -/
def b64encode : List Nat → String
  | [] => ""
  | [a] =>
    String.mk [b64char (a / 4 % 64), b64char (a % 4 * 16), '=', '=']
  | [a, b] =>
    String.mk [b64char (a / 4 % 64), b64char (a % 4 * 16 + b / 16 % 16),
      b64char (b % 16 * 4), '=']
  | a :: b :: c :: rest =>
    String.mk [b64char (a / 4 % 64), b64char (a % 4 * 16 + b / 16 % 16),
      b64char (b % 16 * 4 + c / 64 % 4), b64char (c % 64)] ++ b64encode rest

/-- Index of a character in the base64 alphabet. -/
def b64charIdxAux (c : Char) : List Char → Nat → Option Nat
  | [], _ => none
  | d :: rest, i => if d = c then some i else b64charIdxAux c rest (i + 1)

/-- Index lookup with an error for characters outside the alphabet. -/
def b64charIdx (c : Char) : Except String Nat :=
  match b64charIdxAux c
      "ABCDEFGHIJKLMNOPQRSTUVWXYZabcdefghijklmnopqrstuvwxyz0123456789+/".data 0 with
  | some n => .ok n
  | none => .error "invalid base64 character"

/-- Decoding of the padding-stripped base64 character groups. -/
def b64decodeChunks : List Char → Except String (List Nat)
  | [] => .ok []
  | [_] => .error "invalid base64 length"
  | [a, b] => do
    let x ← b64charIdx a
    let y ← b64charIdx b
    .ok [x * 4 + y / 16]
  | [a, b, c] => do
    let x ← b64charIdx a
    let y ← b64charIdx b
    let z ← b64charIdx c
    .ok [x * 4 + y / 16, y % 16 * 16 + z / 4]
  | a :: b :: c :: d :: rest => do
    let x ← b64charIdx a
    let y ← b64charIdx b
    let z ← b64charIdx c
    let w ← b64charIdx d
    let tail ← b64decodeChunks rest
    .ok ([x * 4 + y / 16, y % 16 * 16 + z / 4, z % 4 * 64 + w] ++ tail)

/-- Modelled from the spec: the repository's base64 decoding helper
(`json.AssignNextBytesToken`'s backend, outside the generator source)
base64-decodes a string token into a byte sequence. -/
def b64decode (s : String) : Except String (List Nat) :=
  b64decodeChunks (s.data.filter (fun c => c ≠ '='))

/-- JSON string quoting of the generic encoder (escape-free wire keys and
values, as the schema uses). -/
def jsonQuote (s : String) : String := "\"" ++ s ++ "\""

/-- Serialization of one runtime value as the generated `MarshalJSON`
performs it: a byte sequence is written as quoted base64 text (the `[]byte`
case of its type switch); every other value goes through the generic JSON
encoder, modelled by standard quoting for strings and the composite's carried
encoding. -/
def encodeValue : JValue → String
  | vBytes bs => jsonQuote (b64encode bs)
  | vStr s => jsonQuote s
  | vComposite _ e _ => e

/-- Generated constant: name and value, as in the source's `Constant`
struct. -/
structure ConstantC where
  name : String
  value : String
deriving DecidableEq, Repr

/-- Constant-collection loop of `generateKeyType`: walk every field of every
object of the group, skip standard fields, skip fields whose exported name
was already seen, and otherwise record `<pfx><Name>Key = jsonKey`. -/
def collectConstants (pfx : String) : List FieldM → List String → List ConstantC
  | [], _ => []
  | f :: rest, seen =>
    if f.is_std then collectConstants pfx rest seen
    else if f.name ∈ seen then collectConstants pfx rest seen
    else ⟨pfx ++ f.name ++ "Key", f.jsonKey⟩ :: collectConstants pfx rest (f.name :: seen)

/-- Comparison used by `generateKeyType`'s `sort.Slice`: constants ordered by
generated name. -/
def constLe (a b : ConstantC) : Prop := strLe a.name b.name

instance : DecidableRel constLe := fun a b =>
  inferInstanceAs (Decidable (strLe a.name b.name))

instance : IsTotal ConstantC constLe :=
  ⟨fun a b => charListLe_total a.name.data b.name.data⟩

instance : IsTrans ConstantC constLe :=
  ⟨fun a b c h1 h2 => charListLe_trans a.name.data b.name.data c.name.data h1 h2⟩

/-- Constant derivation of `generateKeyType`: collect over all the group's
objects' fields (objects in order, each object's fields in order), then sort
by generated constant name. -/
def deriveConstants (kt : KeyTypeM) (objs : List (List FieldM)) : List ConstantC :=
  List.insertionSort constLe (collectConstants kt.pfx objs.flatten [])

/-- Raw wire value of one object-body entry: the token(s) following a key in
the stream, either a JSON string token or any other JSON value carried with
the dynamic Go type `tag` the external decoder produces for it and its
encoded text `enc`. -/
inductive RawVal where
  | str (s : String)
  | comp (tag : String) (enc : String)
deriving DecidableEq, Repr

/-- Decode function of an extension registry (`Registry.Decode(dec, tok)`).
Modelled from the spec: registries are external collaborators that, given the
wire key and the token stream positioned at its value, either produce a typed
value or decline with an error. -/
def RegistryM : Type := String → RawVal → Except String JValue

/-- State of one generated runtime object: one slot per static field in
schema order (the struct members), the extension map `privateParams` (`none`
models a nil Go map), and the optional decode context `dc`, collapsed to its
registry since the decode path only uses `dc.Registry()`. -/
structure KeyState where
  slots : List (FieldM × Option JValue)
  privateParams : Option (List (String × JValue))
  dc : Option RegistryM

/-- Generated constructor `newXXX`: empty slots for the given schema, an
allocated empty extension map, no decode context. -/
def newKey (fs : List FieldM) : KeyState :=
  ⟨fs.map (fun f => (f, none)), some [], none⟩

/-- Value returned for the discriminator: `h.KeyType()` is the group's fixed
`jwa.KeyType` constant, whose generic JSON encoding is its quoted string. -/
def ktyVal (kt : KeyTypeM) : JValue :=
  vComposite "jwa.KeyType" (jsonQuote kt.ktyString) none

/-- Iteration of the extension map (a nil map iterates over nothing). -/
def ppList : Option (List (String × JValue)) → List (String × JValue)
  | none => []
  | some l => l

/-- Lookup in the extension map (a nil map holds nothing). -/
def lookupPP (pp : Option (List (String × JValue))) (k : String) : Option JValue :=
  mapLookup k (ppList pp)

/-- Pair list built by the generated `makePairs`: the discriminator pair
first, then one pair per non-empty static field slot in schema order (boxed
slots dereferenced), then the extension-map entries. -/
def makePairs (kt : KeyTypeM) (st : KeyState) : List (String × JValue) :=
  ("kty", ktyVal kt) ::
    (st.slots.filterMap (fun p => p.2.map (fun v => (p.1.jsonKey, v))) ++
      ppList st.privateParams)

/-- Key-to-value map `data` built by `MarshalJSON` from the pair list. -/
def buildData (pairs : List (String × JValue)) : List (String × JValue) :=
  pairs.foldl (fun m p => mapInsert p.1 p.2 m) []

/-- One emitted object entry of `MarshalJSON`. -/
def renderEntry (data : List (String × JValue)) (f : String) : String :=
  jsonQuote f ++ ":" ++ encodeValue ((mapLookup f data).getD (vStr ""))

/-- Generated `MarshalJSON`: collect the pair keys (`fields`) and the
key-to-value map (`data`) from `makePairs`, sort the keys lexicographically,
and emit the object entries in that order. -/
def MarshalJSON (kt : KeyTypeM) (st : KeyState) : String :=
  "\x7b" ++ String.intercalate ","
    ((sortStrings ((makePairs kt st).map Prod.fst)).map
      (renderEntry (buildData (makePairs kt st)))) ++ "\x7d"

/-- Slot dispatch of the generated accessors: the first field whose constant
key (its wire key) matches the name. -/
def getSlots : List (FieldM × Option JValue) → String → Option (FieldM × Option JValue)
  | [], _ => none
  | (f, slot) :: rest, name =>
    if f.jsonKey = name then some (f, slot) else getSlots rest name

/-- Generated `Get`: the discriminator case first, then the static-field
cases (an empty slot reports not-found; a get-with-default field returns its
value's `Get()` result; other boxed fields their dereferenced value), and
finally the extension-map lookup. -/
def Get (kt : KeyTypeM) (st : KeyState) (name : String) : Option JValue :=
  if name = "kty" then some (ktyVal kt)
  else
    match getSlots st.slots name with
    | some (_, none) => none
    | some (f, some v) => some (if f.hasGet then jGet v else v)
    | none => lookupPP st.privateParams name

/-- Modelled from the spec: the custom accept-coercion (`Accept`) of
composite field types lives outside the generator source; the model accepts a
value of exactly the field's type and declines anything else. -/
def acceptCoerce (typ : String) (v : JValue) : Except String JValue :=
  if tyOf v = typ then .ok v else .error ("cannot accept value of type " ++ tyOf v)

/-- Wrapping of a string as a key algorithm identifier
(`jwa.KeyAlgorithmFrom`, external to the generator source). -/
def keyAlgorithmFrom (s : String) : JValue :=
  vComposite "jwa.KeyAlgorithm" (jsonQuote s) none

/-- String rendition of a value implementing `fmt.Stringer`.  Modelled from
the spec: the concrete `String()` methods are external; composites render as
their encoding, plain strings as themselves, byte sequences are not
Stringers. -/
def stringerOf : JValue → Option String
  | vStr s => some s
  | vComposite _ e _ => some e
  | vBytes _ => none

/-- Bespoke coercion of the `algorithm` field in `setNoLock`: strings and the
two algorithm sub-kinds (and any Stringer) normalize through
`jwa.KeyAlgorithmFrom`; anything else is a type error naming the key. -/
def setAlgorithmBranch (keyName : String) (value : JValue) : Except String JValue :=
  if tyOf value = "string" ∨ tyOf value = "jwa.SignatureAlgorithm" ∨
      tyOf value = "jwa.ContentEncryptionAlgorithm" then
    match value with
    | vStr s => .ok (keyAlgorithmFrom s)
    | v => .ok (keyAlgorithmFrom ((stringerOf v).getD ""))
  else
    match stringerOf value with
    | some s => .ok (keyAlgorithmFrom s)
    | none => .error ("invalid type for " ++ keyName ++ " key: " ++ tyOf value)

/-- Bespoke coercion of the `keyUsage` field in `setNoLock`: the two
recognized enumerated usages store their string form, a free-form string is
stored as-is, anything else fails. -/
def setKeyUsageBranch (value : JValue) : Except String JValue :=
  if tyOf value = "KeyUsageType" then
    let s := (stringerOf value).getD ""
    if s = "sig" ∨ s = "enc" then .ok (vStr s)
    else .error ("invalid key usage type " ++ s)
  else
    match value with
    | vStr s => .ok (vStr s)
    | _ => .error "invalid key usage type"

/-- Per-field assignment logic of the generated `setNoLock` (the body of one
static-field `case`): the bespoke `algorithm` and `keyUsage` coercions, the
`Accept` path for `hasAccept` fields, and the exact dynamic-type check
otherwise.  Returns the new slot content. -/
def setFieldBranch (f : FieldM) (value : JValue) : Except String JValue :=
  if f.lname = "algorithm" then setAlgorithmBranch f.jsonKey value
  else if f.lname = "keyUsage" then setKeyUsageBranch value
  else if f.hasAccept then
    match acceptCoerce f.typ value with
    | .ok v => .ok v
    | .error e => .error ("invalid value for " ++ f.jsonKey ++ " key: " ++ e)
  else if tyOf value = f.typ then .ok value
  else .error ("invalid value for " ++ f.jsonKey ++ " key: " ++ tyOf value)

/-- Static-field dispatch of `setNoLock`: `none` when no case matches. -/
def setSlots : List (FieldM × Option JValue) → String → JValue →
    Option (Except String (List (FieldM × Option JValue)))
  | [], _, _ => none
  | (f, slot) :: rest, name, value =>
    if f.jsonKey = name then
      some
        (match setFieldBranch f value with
        | .ok v => .ok ((f, some v) :: rest)
        | .error e => .error e)
    else (setSlots rest name value).map (fun r => r.map (fun l => (f, slot) :: l))

/-- Generated `setNoLock` (the body of `Set`): the discriminator key is
silently ignored; a static-field key runs its per-field branch; any other key
is inserted into the extension map, allocating the map first when it is
nil. -/
def setNoLock (st : KeyState) (name : String) (value : JValue) : Except String KeyState :=
  if name = "kty" then .ok st
  else
    match setSlots st.slots name value with
    | some (.ok slots') => .ok { st with slots := slots' }
    | some (.error e) => .error e
    | none =>
      .ok { st with privateParams := some (mapInsert name value (ppList st.privateParams)) }

/-- Static-field dispatch of `Remove`: `none` when no case matches. -/
def removeSlots : List (FieldM × Option JValue) → String →
    Option (List (FieldM × Option JValue))
  | [], _ => none
  | (f, slot) :: rest, key =>
    if f.jsonKey = key then some ((f, none) :: rest)
    else (removeSlots rest key).map (fun l => (f, slot) :: l)

/-- Generated `Remove`: a static-field case resets that slot to empty; every
other key is deleted from the extension map (a nil map stays nil); the result
is always success. -/
def Remove (st : KeyState) (key : String) : Except String KeyState :=
  match removeSlots st.slots key with
  | some slots' => .ok { st with slots := slots' }
  | none => .ok { st with privateParams := st.privateParams.map (mapErase key) }

/-- Slot reset performed at the top of the generated `UnmarshalJSON`. -/
def resetSlots (slots : List (FieldM × Option JValue)) : List (FieldM × Option JValue) :=
  slots.map (fun p => (p.1, none))

/-- Modelled from the spec: the generic value decoder (`dec.Decode` of the
repository's json package, outside the generator source) decodes the next
value into a target Go type, succeeding when the wire value produces exactly
that dynamic type. -/
def decodeAs (typ : String) (rv : RawVal) : Except String JValue :=
  match rv with
  | .str s =>
    if typ = "string" then .ok (vStr s)
    else .error ("cannot decode string into " ++ typ)
  | .comp tag e =>
    if tag = typ then .ok (vComposite tag e none)
    else .error ("cannot decode " ++ tag ++ " into " ++ typ)

/-- Element type behind a pointer type (`PointerElem` in the source). -/
def pointerElem (s : String) : String :=
  if strStartsWith s "*" then String.mk (s.data.drop 1) else s

/-- Per-field decode step of the generated `UnmarshalJSON`: strings are read
directly, key algorithms via `jwa.KeyAlgorithmFrom`, byte sequences through
base64, and every other type through the generic decoder into a fresh boxed
value. -/
def decodeField (f : FieldM) (rv : RawVal) : Except String JValue :=
  if f.typ = "string" then
    match rv with
    | .str s => .ok (vStr s)
    | _ => .error ("failed to decode value for key " ++ f.jsonKey ++ ": not a string")
  else if f.typ = "jwa.KeyAlgorithm" then
    match rv with
    | .str s => .ok (keyAlgorithmFrom s)
    | _ => .error ("failed to decode value for key " ++ f.jsonKey ++ ": not a string")
  else if f.typ = "[]byte" then
    match rv with
    | .str s =>
      match b64decode s with
      | .ok bs => .ok (vBytes bs)
      | .error e => .error ("failed to decode value for key " ++ f.jsonKey ++ ": " ++ e)
    | _ => .error ("failed to decode value for key " ++ f.jsonKey ++ ": not a string")
  else
    match decodeAs (pointerElem f.typ) rv with
    | .ok v => .ok v
    | .error e => .error ("failed to decode value for key " ++ f.jsonKey ++ ": " ++ e)

/-- Static-field dispatch of the decode loop: `none` when no case matches. -/
def decodeSlots : List (FieldM × Option JValue) → String → RawVal →
    Option (Except String (List (FieldM × Option JValue)))
  | [], _, _ => none
  | (f, slot) :: rest, key, rv =>
    if f.jsonKey = key then
      some
        (match decodeField f rv with
        | .ok v => .ok ((f, some v) :: rest)
        | .error e => .error e)
    else (decodeSlots rest key rv).map (fun r => r.map (fun l => (f, slot) :: l))

/-- Storage step of the decode fall-back: the decoded value is stored via the
same path as `Set` (`h.setNoLock(tok, decoded)`), whose return value the
generated code discards. -/
def storeDecoded (st : KeyState) (k : String) (v : JValue) : KeyState :=
  match setNoLock st k v with
  | .ok st' => st'
  | .error _ => st

/-- One key/value entry of the token stream as the generated `UnmarshalJSON`
processes it: the hard-coded discriminator case, the static-field cases, and
the default case consulting the local registry (when a decode context is
attached) and then the global one. -/
def processEntry (kt : KeyTypeM) (glob : RegistryM) (st : KeyState)
    (k : String) (rv : RawVal) : Except String KeyState :=
  if k = "kty" then
    match rv with
    | .str s =>
      if s = kt.ktyString then .ok st
      else .error ("invalid kty value for RSAPublicKey (" ++ s ++ ")")
    | _ => .error "error reading token: expected string value for kty"
  else
    match decodeSlots st.slots k rv with
    | some (.ok slots') => .ok { st with slots := slots' }
    | some (.error err) => .error err
    | none =>
      match st.dc with
      | some localReg =>
        match localReg k rv with
        | .ok v => .ok (storeDecoded st k v)
        | .error _ =>
          match glob k rv with
          | .ok v => .ok (storeDecoded st k v)
          | .error err => .error ("could not decode field " ++ k ++ ": " ++ err)
      | none =>
        match glob k rv with
        | .ok v => .ok (storeDecoded st k v)
        | .error err => .error ("could not decode field " ++ k ++ ": " ++ err)

/-- Processing of the whole object body, entry by entry. -/
def processEntries (kt : KeyTypeM) (glob : RegistryM) :
    KeyState → List (String × RawVal) → Except String KeyState
  | st, [] => .ok st
  | st, (k, rv) :: rest =>
    match processEntry kt glob st k rv with
    | .ok st' => processEntries kt glob st' rest
    | .error err => .error err

/-- Required-field enforcement after the decode loop (schema order, first
missing field reported). -/
def checkRequired : List (FieldM × Option JValue) → Except String Unit
  | [] => .ok ()
  | (f, slot) :: rest =>
    if f.required && slot.isNone then
      .error ("required field " ++ f.jsonKey ++ " is missing")
    else checkRequired rest

/-- Generated `UnmarshalJSON` over an already-tokenized object body: reset
every static slot, process each key/value entry, then enforce the required
fields.  (Delimiter handling of the raw token stream is the external json
tokenizer's concern.) -/
def UnmarshalJSON (kt : KeyTypeM) (glob : RegistryM) (st : KeyState)
    (entries : List (String × RawVal)) : Except String KeyState :=
  match processEntries kt glob { st with slots := resetSlots st.slots } entries with
  | .error err => .error err
  | .ok st' =>
    match checkRequired st'.slots with
    | .error err => .error err
    | .ok _ => .ok st'

theorem mapLookup_eq_none {k : String} :
    ∀ {l : List (String × JValue)}, k ∉ l.map Prod.fst → mapLookup k l = none
  | [], _ => rfl
  | (k', v) :: rest, h => by
    simp only [List.map_cons, List.mem_cons] at h
    push_neg at h
    simp only [mapLookup]
    rw [if_neg (fun hk => h.1 hk.symm)]
    exact mapLookup_eq_none h.2

theorem mapLookup_append (k : String) :
    ∀ (l₁ l₂ : List (String × JValue)),
      mapLookup k (l₁ ++ l₂) =
        match mapLookup k l₁ with
        | some v => some v
        | none => mapLookup k l₂
  | [], _ => rfl
  | (k', v) :: rest, l₂ => by
    simp only [List.cons_append, mapLookup]
    by_cases h : k' = k
    · rw [if_pos h, if_pos h]
    · rw [if_neg h, if_neg h]
      exact mapLookup_append k rest l₂

theorem mapLookup_mapErase_self (k : String) :
    ∀ l : List (String × JValue), mapLookup k (mapErase k l) = none
  | [] => rfl
  | (k', v) :: rest => by
    simp only [mapErase]
    by_cases h : k' = k
    · rw [if_pos h]
      exact mapLookup_mapErase_self k rest
    · rw [if_neg h]
      simp only [mapLookup]
      rw [if_neg h]
      exact mapLookup_mapErase_self k rest

theorem mapLookup_mapErase_ne {k k' : String} (h : k' ≠ k) :
    ∀ l : List (String × JValue), mapLookup k (mapErase k' l) = mapLookup k l
  | [] => rfl
  | (k'', v) :: rest => by
    simp only [mapErase, mapLookup]
    by_cases h2 : k'' = k'
    · rw [if_pos h2, if_neg (h2 ▸ fun hk => h (h2 ▸ hk))]
      exact mapLookup_mapErase_ne h rest
    · rw [if_neg h2]
      simp only [mapLookup]
      by_cases h3 : k'' = k
      · rw [if_pos h3, if_pos h3]
      · rw [if_neg h3, if_neg h3]
        exact mapLookup_mapErase_ne h rest

theorem mapLookup_mapInsert_self (k : String) (v : JValue) (l : List (String × JValue)) :
    mapLookup k (mapInsert k v l) = some v := by
  unfold mapInsert
  rw [mapLookup_append, mapLookup_mapErase_self]
  simp [mapLookup]

theorem mapLookup_mapInsert_ne {k k' : String} (h : k ≠ k') (v : JValue)
    (l : List (String × JValue)) :
    mapLookup k (mapInsert k' v l) = mapLookup k l := by
  unfold mapInsert
  rw [mapLookup_append]
  rw [mapLookup_mapErase_ne (fun hk => h hk.symm) l]
  cases hl : mapLookup k l with
  | none =>
    simp only [mapLookup]
    rw [if_neg (fun hk => h hk.symm)]
  | some w => rfl

/-- C2 counterexample: the source's indirection rule treats
`KeyOperationList` as indirect although it is a `List`-suffixed (list) type,
which the claimed rule classifies as directly stored. -/
theorem c2_counterexample :
    fieldStorageTypeIsIndirect "KeyOperationList" = true ∧
      specStorageIndirect "KeyOperationList" = false := by decide

/-- C2 (amended): storage is indirect exactly when the type is
`KeyOperationList`, or is neither a pointer type, nor a slice type, nor a
`List`-suffixed type; apart from the explicit `KeyOperationList` exception
this is the claimed derivation rule. -/
theorem c2_storage_indirection (s : String) :
    fieldStorageTypeIsIndirect s = true ↔
      (s = "KeyOperationList" ∨
        (strStartsWith s "*" = false ∧ strStartsWith s "[]" = false ∧
          strEndsWith s "List" = false)) := by
  unfold fieldStorageTypeIsIndirect
  simp only [Bool.or_eq_true, decide_eq_true_eq, Bool.not_eq_eq_eq_not, Bool.not_true,
    Bool.or_eq_false_iff]
  constructor
  · rintro (h | h)
    · exact Or.inl h
    · exact Or.inr ⟨h.1.1, h.1.2, h.2⟩
  · rintro (h | h)
    · exact Or.inl h
    · exact Or.inr ⟨⟨h.1, h.2.1⟩, h.2.2⟩

/-- Example key-type group used by the concrete instances. -/
def exKt : KeyTypeM := ⟨"Test", "RSA"⟩

/-- First of two distinct non-standard fields normalizing to the same
constant name. -/
def exCollideA : FieldM := ⟨"X", "x", "x1", "string", false, false, false, false⟩

/-- Second of two distinct non-standard fields normalizing to the same
constant name. -/
def exCollideB : FieldM := ⟨"X", "x", "x2", "string", false, false, false, false⟩

/-- C3 counterexample: two distinct non-standard fields of one group
normalize to the same constant name `TestXKey`, yet constant derivation does
not fail: it emits output, keeping only the first field's constant. -/
theorem c3_counterexample :
    deriveConstants exKt [[exCollideA, exCollideB]] =
        [⟨"TestXKey", "x1"⟩] ∧ exCollideA ≠ exCollideB := by decide

theorem collectConstants_skip (pfx : String) {g : FieldM} (hg : g.is_std = false) :
    ∀ (l2 l3 : List FieldM) (seen : List String), g.name ∈ seen →
      collectConstants pfx (l2 ++ g :: l3) seen = collectConstants pfx (l2 ++ l3) seen
  | [], l3, seen, hmem => by
    simp only [List.nil_append, collectConstants, hg, Bool.false_eq_true, if_false]
    rw [if_pos hmem]
  | f' :: l2', l3, seen, hmem => by
    simp only [List.cons_append, collectConstants]
    by_cases h1 : f'.is_std = true
    · rw [if_pos h1, if_pos h1]
      exact collectConstants_skip pfx hg l2' l3 seen hmem
    · rw [if_neg h1, if_neg h1]
      by_cases h2 : f'.name ∈ seen
      · rw [if_pos h2, if_pos h2]
        exact collectConstants_skip pfx hg l2' l3 seen hmem
      · rw [if_neg h2, if_neg h2]
        congr 1
        exact collectConstants_skip pfx hg l2' l3 (f'.name :: seen)
          (List.mem_cons_of_mem _ hmem)

theorem collectConstants_collision (pfx : String) {f g : FieldM}
    (hf : f.is_std = false) (hg : g.is_std = false) (hname : g.name = f.name) :
    ∀ (l1 l2 l3 : List FieldM) (seen : List String),
      collectConstants pfx (l1 ++ f :: l2 ++ g :: l3) seen =
        collectConstants pfx (l1 ++ f :: l2 ++ l3) seen
  | [], l2, l3, seen => by
    simp only [List.nil_append, collectConstants, hf, Bool.false_eq_true, if_false]
    by_cases hm : f.name ∈ seen
    · rw [if_pos hm, if_pos hm]
      exact collectConstants_skip pfx hg l2 l3 seen (hname ▸ hm)
    · rw [if_neg hm, if_neg hm]
      congr 1
      exact collectConstants_skip pfx hg l2 l3 (f.name :: seen)
        (by rw [hname]; exact List.mem_cons_self _ _)
  | f' :: l1', l2, l3, seen => by
    simp only [List.cons_append, collectConstants]
    by_cases h1 : f'.is_std = true
    · rw [if_pos h1, if_pos h1]
      exact collectConstants_collision pfx hf hg hname l1' l2 l3 seen
    · rw [if_neg h1, if_neg h1]
      by_cases h2 : f'.name ∈ seen
      · rw [if_pos h2, if_pos h2]
        exact collectConstants_collision pfx hf hg hname l1' l2 l3 seen
      · rw [if_neg h2, if_neg h2]
        congr 1
        exact collectConstants_collision pfx hf hg hname l1' l2 l3 (f'.name :: seen)

/-- C3 (amended): a name collision after prefixing is not a fatal error;
the colliding later field is silently dropped by the seen-set deduplication
and derivation proceeds, producing exactly the output it would produce had
the colliding field not been there. -/
theorem c3_collision_not_fatal (kt : KeyTypeM) (l1 l2 l3 : List FieldM)
    (f g : FieldM) (hf : f.is_std = false) (hg : g.is_std = false)
    (hname : g.name = f.name) :
    deriveConstants kt [l1 ++ f :: l2 ++ g :: l3] =
      deriveConstants kt [l1 ++ f :: l2 ++ l3] := by
  unfold deriveConstants
  simp only [List.flatten_cons, List.flatten_nil, List.append_nil]
  rw [collectConstants_collision kt.pfx hf hg hname l1 l2 l3 []]

/-- C3 witness. -/
theorem c3_collision_not_fatal_witness :
    deriveConstants exKt [[exCollideA, exCollideB]] = deriveConstants exKt [[exCollideA]] :=
  c3_collision_not_fatal exKt [] [] [] exCollideA exCollideB (by decide) (by decide)
    (by decide)

theorem keyname_inj {pfx x y : String} (h : pfx ++ x ++ "Key" = pfx ++ y ++ "Key") :
    x = y := by
  have hd : pfx.data ++ x.data ++ "Key".data = pfx.data ++ y.data ++ "Key".data := by
    have hdq : (pfx ++ x ++ "Key").data = (pfx ++ y ++ "Key").data := by rw [h]
    simpa using hdq
  exact string_data_inj (List.append_cancel_left (List.append_cancel_right hd))

theorem mem_collectConstants {pfx : String} :
    ∀ {l : List FieldM} {seen : List String} {c : ConstantC},
      c ∈ collectConstants pfx l seen →
      ∃ f ∈ l, f.is_std = false ∧ f.name ∉ seen ∧
        c = ⟨pfx ++ f.name ++ "Key", f.jsonKey⟩
  | [], _, _, h => by simp [collectConstants] at h
  | f :: rest, seen, c, h => by
    simp only [collectConstants] at h
    by_cases h1 : f.is_std = true
    · rw [if_pos h1] at h
      obtain ⟨g, hg, hprops⟩ := mem_collectConstants h
      exact ⟨g, List.mem_cons_of_mem _ hg, hprops⟩
    · have h1' : f.is_std = false := by simpa using h1
      rw [if_neg h1] at h
      by_cases h2 : f.name ∈ seen
      · rw [if_pos h2] at h
        obtain ⟨g, hg, hprops⟩ := mem_collectConstants h
        exact ⟨g, List.mem_cons_of_mem _ hg, hprops⟩
      · rw [if_neg h2] at h
        rcases List.mem_cons.mp h with hc | hc
        · exact ⟨f, List.mem_cons_self _ _, h1', h2, hc⟩
        · obtain ⟨g, hg, hstd, hseen, hform⟩ := mem_collectConstants hc
          exact ⟨g, List.mem_cons_of_mem _ hg, hstd,
            fun hmem => hseen (List.mem_cons_of_mem _ hmem), hform⟩

theorem collectConstants_complete {pfx : String} :
    ∀ {l : List FieldM} {seen : List String} {f : FieldM}, f ∈ l →
      f.is_std = false → f.name ∉ seen →
      (∀ g ∈ l, g.is_std = false → g.name = f.name → g.jsonKey = f.jsonKey) →
      (⟨pfx ++ f.name ++ "Key", f.jsonKey⟩ : ConstantC) ∈ collectConstants pfx l seen
  | [], _, _, hmem, _, _, _ => absurd hmem (List.not_mem_nil _)
  | h :: rest, seen, f, hmem, hstd, hseen, hcons => by
    simp only [collectConstants]
    by_cases h1 : h.is_std = true
    · rw [if_pos h1]
      have hne : f ≠ h := fun he => by rw [he, h1] at hstd; exact Bool.noConfusion hstd
      have hmem' : f ∈ rest := by
        rcases List.mem_cons.mp hmem with he | hm
        · exact absurd he hne
        · exact hm
      exact collectConstants_complete hmem' hstd hseen
        (fun g hg => hcons g (List.mem_cons_of_mem _ hg))
    · have h1' : h.is_std = false := by simpa using h1
      rw [if_neg h1]
      by_cases h2 : h.name ∈ seen
      · rw [if_pos h2]
        have hne : h.name ≠ f.name := fun he => hseen (he ▸ h2)
        have hmem' : f ∈ rest := by
          rcases List.mem_cons.mp hmem with he | hm
          · exact absurd (congrArg FieldM.name he).symm hne
          · exact hm
        exact collectConstants_complete hmem' hstd hseen
          (fun g hg => hcons g (List.mem_cons_of_mem _ hg))
      · rw [if_neg h2]
        by_cases h3 : h.name = f.name
        · have hjson : h.jsonKey = f.jsonKey :=
            hcons h (List.mem_cons_self _ _) h1' h3
          rw [show (⟨pfx ++ f.name ++ "Key", f.jsonKey⟩ : ConstantC) =
            ⟨pfx ++ h.name ++ "Key", h.jsonKey⟩ by rw [h3, hjson]]
          exact List.mem_cons_self _ _
        · have hmem' : f ∈ rest := by
            rcases List.mem_cons.mp hmem with he | hm
            · exact absurd (congrArg FieldM.name he).symm h3
            · exact hm
          apply List.mem_cons_of_mem
          exact collectConstants_complete hmem' hstd
            (fun hm => by
              rcases List.mem_cons.mp hm with he | hs
              · exact h3 he.symm
              · exact hseen hs)
            (fun g hg => hcons g (List.mem_cons_of_mem _ hg))

theorem collectConstants_names (pfx : String) :
    ∀ (l : List FieldM) (seen : List String),
      ((collectConstants pfx l seen).map ConstantC.name).Nodup ∧
      ∀ c ∈ collectConstants pfx l seen, ∃ n, c.name = pfx ++ n ++ "Key" ∧ n ∉ seen
  | [], _ => ⟨List.nodup_nil, fun c hc => by simp [collectConstants] at hc⟩
  | f :: rest, seen => by
    simp only [collectConstants]
    by_cases h1 : f.is_std = true
    · rw [if_pos h1]
      exact collectConstants_names pfx rest seen
    · rw [if_neg h1]
      by_cases h2 : f.name ∈ seen
      · rw [if_pos h2]
        exact collectConstants_names pfx rest seen
      · rw [if_neg h2]
        obtain ⟨ihnodup, ihshape⟩ := collectConstants_names pfx rest (f.name :: seen)
        constructor
        · simp only [List.map_cons, List.nodup_cons]
          refine ⟨fun hmem => ?_, ihnodup⟩
          obtain ⟨c, hc, hcname⟩ := List.mem_map.mp hmem
          obtain ⟨n, hn, hnseen⟩ := ihshape c hc
          rw [hn] at hcname
          exact hnseen (keyname_inj hcname ▸ List.mem_cons_self _ _)
        · intro c hc
          rcases List.mem_cons.mp hc with he | hm
          · exact ⟨f.name, by rw [he], h2⟩
          · obtain ⟨n, hn, hnseen⟩ := ihshape c hm
            exact ⟨n, hn, fun hmem => hnseen (List.mem_cons_of_mem _ hmem)⟩

/-- Strict version of the constant ordering, used to exploit name
uniqueness. -/
def constLt (a b : ConstantC) : Prop := constLe a b ∧ a.name ≠ b.name

instance : IsAntisymm ConstantC constLt :=
  ⟨fun _ _ h1 h2 =>
    absurd (string_data_inj (charListLe_antisymm _ _ h1.1 h2.1)) h1.2⟩

theorem sorted_constLt {l : List ConstantC} (hs : l.Sorted constLe)
    (hn : (l.map ConstantC.name).Nodup) : l.Sorted constLt :=
  hs.and (List.pairwise_map.mp hn)

theorem sorted_nodup_names_eq {l₁ l₂ : List ConstantC} (hp : l₁.Perm l₂)
    (h₁ : l₁.Sorted constLe) (h₂ : l₂.Sorted constLe)
    (hn : (l₁.map ConstantC.name).Nodup) : l₁ = l₂ :=
  List.eq_of_perm_of_sorted hp (sorted_constLt h₁ hn)
    (sorted_constLt h₂ ((hp.map _).nodup hn))

/-- C8: constant derivation skips standard fields, deduplicates by display
name, names each remaining constant `<pfx><Name>Key` with the field's wire
key as its value, and emits the constants sorted by generated name with no
duplicate names; under the schema-consistency assumption that a display name
determines its wire key, the emitted list is identical for any reordering of
the input fields. -/
theorem c8_constant_derivation (kt : KeyTypeM) (objsA objsB : List (List FieldM))
    (hperm : objsA.flatten.Perm objsB.flatten)
    (hcons : ∀ f ∈ objsA.flatten, ∀ g ∈ objsA.flatten,
      f.is_std = false → g.is_std = false → f.name = g.name → f.jsonKey = g.jsonKey) :
    (∀ c ∈ deriveConstants kt objsA, ∃ f ∈ objsA.flatten,
      f.is_std = false ∧ c = ⟨kt.pfx ++ f.name ++ "Key", f.jsonKey⟩) ∧
    (∀ f ∈ objsA.flatten, f.is_std = false →
      (⟨kt.pfx ++ f.name ++ "Key", f.jsonKey⟩ : ConstantC) ∈ deriveConstants kt objsA) ∧
    (deriveConstants kt objsA).Sorted constLe ∧
    ((deriveConstants kt objsA).map ConstantC.name).Nodup ∧
    deriveConstants kt objsA = deriveConstants kt objsB := by
  have hpermA : (deriveConstants kt objsA).Perm (collectConstants kt.pfx objsA.flatten []) :=
    List.perm_insertionSort constLe _
  have hpermB : (deriveConstants kt objsB).Perm (collectConstants kt.pfx objsB.flatten []) :=
    List.perm_insertionSort constLe _
  have hnodupA := (collectConstants_names kt.pfx objsA.flatten []).1
  have hnodupB := (collectConstants_names kt.pfx objsB.flatten []).1
  have hconsB : ∀ f ∈ objsB.flatten, ∀ g ∈ objsB.flatten,
      f.is_std = false → g.is_std = false → f.name = g.name → f.jsonKey = g.jsonKey :=
    fun f hf g hg => hcons f (hperm.symm.subset hf) g (hperm.symm.subset hg)
  refine ⟨?_, ?_, List.sorted_insertionSort constLe _, ?_, ?_⟩
  · intro c hc
    obtain ⟨f, hf, hstd, _, hform⟩ := mem_collectConstants (hpermA.subset hc)
    exact ⟨f, hf, hstd, hform⟩
  · intro f hf hstd
    apply hpermA.symm.subset
    exact collectConstants_complete hf hstd (List.not_mem_nil _)
      (fun g hg hgstd hgname => hcons g hg f hf hgstd hstd hgname)
  · exact ((hpermA.map _).nodup_iff).mpr hnodupA
  · have hmemext : ∀ c, c ∈ collectConstants kt.pfx objsA.flatten [] ↔
        c ∈ collectConstants kt.pfx objsB.flatten [] := by
      intro c
      constructor
      · intro hc
        obtain ⟨f, hf, hstd, _, hform⟩ := mem_collectConstants hc
        rw [hform]
        exact collectConstants_complete (hperm.subset hf) hstd (List.not_mem_nil _)
          (fun g hg hgstd hgname =>
            hcons g (hperm.symm.subset hg) f hf hgstd hstd hgname)
      · intro hc
        obtain ⟨f, hf, hstd, _, hform⟩ := mem_collectConstants hc
        rw [hform]
        exact collectConstants_complete (hperm.symm.subset hf) hstd (List.not_mem_nil _)
          (fun g hg hgstd hgname =>
            hconsB g (hperm.subset hg) f hf hgstd hstd hgname)
    have hpermColl : (collectConstants kt.pfx objsA.flatten []).Perm
        (collectConstants kt.pfx objsB.flatten []) :=
      (List.perm_ext_iff_of_nodup (hnodupA.of_map _) (hnodupB.of_map _)).mpr hmemext
    exact sorted_nodup_names_eq
      (hpermA.trans (hpermColl.trans hpermB.symm))
      (List.sorted_insertionSort constLe _)
      (List.sorted_insertionSort constLe _)
      (((hpermA.map _).nodup_iff).mpr hnodupA)

/-- Example non-standard byte-sequence field `n`. -/
def exF1 : FieldM := ⟨"N", "n", "n", "[]byte", false, false, false, false⟩

/-- Example non-standard byte-sequence field `e`. -/
def exF2 : FieldM := ⟨"E", "e", "e", "[]byte", false, false, false, false⟩

/-- C8 witness: the order-independence consequence at a concrete input. -/
theorem c8_witness :
    deriveConstants exKt [[exF1, exF2]] = deriveConstants exKt [[exF2], [exF1]] :=
  (c8_constant_derivation exKt [[exF1, exF2]] [[exF2], [exF1]] (by decide)
    (by decide)).2.2.2.2

theorem setSlots_eq_none {k : String} (v : JValue) :
    ∀ {slots : List (FieldM × Option JValue)}, (∀ p ∈ slots, p.1.jsonKey ≠ k) →
      setSlots slots k v = none
  | [], _ => rfl
  | (f, slot) :: rest, h => by
    simp only [setSlots]
    rw [if_neg (h (f, slot) (List.mem_cons_self _ _))]
    rw [setSlots_eq_none v (fun p hp => h p (List.mem_cons_of_mem _ hp))]
    rfl

theorem decodeSlots_eq_none {k : String} (rv : RawVal) :
    ∀ {slots : List (FieldM × Option JValue)}, (∀ p ∈ slots, p.1.jsonKey ≠ k) →
      decodeSlots slots k rv = none
  | [], _ => rfl
  | (f, slot) :: rest, h => by
    simp only [decodeSlots]
    rw [if_neg (h (f, slot) (List.mem_cons_self _ _))]
    rw [decodeSlots_eq_none rv (fun p hp => h p (List.mem_cons_of_mem _ hp))]
    rfl

theorem getSlots_eq_none {k : String} :
    ∀ {slots : List (FieldM × Option JValue)}, (∀ p ∈ slots, p.1.jsonKey ≠ k) →
      getSlots slots k = none
  | [], _ => rfl
  | (f, slot) :: rest, h => by
    simp only [getSlots]
    rw [if_neg (h (f, slot) (List.mem_cons_self _ _))]
    exact getSlots_eq_none (fun p hp => h p (List.mem_cons_of_mem _ hp))

theorem removeSlots_none_forall :
    ∀ {slots : List (FieldM × Option JValue)} {k : String},
      removeSlots slots k = none → ∀ p ∈ slots, p.1.jsonKey ≠ k
  | [], _, _ => fun p hp => absurd hp (List.not_mem_nil _)
  | (f, slot) :: rest, k, h => by
    simp only [removeSlots] at h
    by_cases hf : f.jsonKey = k
    · rw [if_pos hf] at h
      exact Option.noConfusion h
    · rw [if_neg hf] at h
      intro p hp
      rcases List.mem_cons.mp hp with he | hm
      · rw [he]; exact hf
      · have hrec : removeSlots rest k = none := by
          cases hr : removeSlots rest k with
          | none => rfl
          | some l => rw [hr] at h; exact Option.noConfusion h
        exact removeSlots_none_forall hrec p hm

theorem removeSlots_spec {k : String} :
    ∀ {slots slots' : List (FieldM × Option JValue)}, removeSlots slots k = some slots' →
      (∃ f, getSlots slots' k = some (f, none)) ∧
      ∀ k', k' ≠ k → getSlots slots' k' = getSlots slots k'
  | [], _, h => Option.noConfusion h
  | (f, slot) :: rest, slots', h => by
    simp only [removeSlots] at h
    by_cases hf : f.jsonKey = k
    · rw [if_pos hf] at h
      injection h with h
      subst h
      refine ⟨⟨f, by simp [getSlots, hf]⟩, ?_⟩
      intro k' hk'
      simp only [getSlots]
      by_cases hf' : f.jsonKey = k'
      · exact absurd (hf ▸ hf').symm hk'
      · rw [if_neg hf', if_neg hf']
    · rw [if_neg hf] at h
      cases hrec : removeSlots rest k with
      | none => rw [hrec] at h; exact Option.noConfusion h
      | some rest' =>
        rw [hrec] at h
        injection h with h
        subst h
        obtain ⟨⟨g, hg⟩, hpres⟩ := removeSlots_spec hrec
        refine ⟨⟨g, ?_⟩, ?_⟩
        · simp only [getSlots]
          rw [if_neg hf]
          exact hg
        · intro k' hk'
          simp only [getSlots]
          by_cases hf' : f.jsonKey = k'
          · rw [if_pos hf', if_pos hf']
          · rw [if_neg hf', if_neg hf']
            exact hpres k' hk'

/-- Success shape of `setNoLock` on an unrecognized, non-discriminator key:
the extension map is (re)allocated and the value inserted. -/
theorem setNoLock_unrecognized (st : KeyState) (k : String) (v : JValue)
    (hk : k ≠ "kty") (hf : ∀ p ∈ st.slots, p.1.jsonKey ≠ k) :
    setNoLock st k v =
      .ok { st with privateParams := some (mapInsert k v (ppList st.privateParams)) } := by
  unfold setNoLock
  rw [if_neg hk, setSlots_eq_none v hf]

/-- C10: a generic set of an unrecognized key always succeeds, allocating the
extension map when it is nil before inserting, and the stored value is
retrievable; in particular the map of the result is non-nil even when the
object was not built by the generated constructor. -/
theorem c10_set_allocates (st : KeyState) (k : String) (v : JValue)
    (hk : k ≠ "kty") (hf : ∀ p ∈ st.slots, p.1.jsonKey ≠ k) :
    setNoLock st k v =
      .ok { st with privateParams := some (mapInsert k v (ppList st.privateParams)) } ∧
    lookupPP (some (mapInsert k v (ppList st.privateParams))) k = some v := by
  refine ⟨setNoLock_unrecognized st k v hk hf, ?_⟩
  unfold lookupPP ppList
  exact mapLookup_mapInsert_self k v _

/-- Example object state with a nil extension map, as an object not built by
the generated constructor would have. -/
def exNilSt : KeyState := ⟨[], none, none⟩

/-- C10 witness. -/
theorem c10_witness :
    setNoLock exNilSt "foo" (vStr "x") =
      .ok { exNilSt with
        privateParams := some (mapInsert "foo" (vStr "x") (ppList exNilSt.privateParams)) } ∧
    lookupPP (some (mapInsert "foo" (vStr "x") (ppList exNilSt.privateParams))) "foo" =
      some (vStr "x") :=
  c10_set_allocates exNilSt "foo" (vStr "x") (by decide) (by simp [exNilSt])

/-- C6: `Remove` always succeeds; afterwards the removed key reads as absent
through `Get` (a static slot is reset even when already empty, any other key
is deleted from the extension map with absence tolerated), every other key is
untouched, and the discriminator is still observable: no `Remove` case
matches the discriminator, whose `Get` case is independent of the state. -/
theorem c6_remove (kt : KeyTypeM) (st : KeyState) (k : String) :
    ∃ st', Remove st k = .ok st' ∧
      Get kt st' "kty" = some (ktyVal kt) ∧
      (k ≠ "kty" → Get kt st' k = none) ∧
      (∀ k', k' ≠ k → Get kt st' k' = Get kt st k') := by
  unfold Remove
  cases hr : removeSlots st.slots k with
  | some slots' =>
    refine ⟨{ st with slots := slots' }, rfl, ?_, ?_, ?_⟩
    · unfold Get; rw [if_pos rfl]
    · intro hk
      obtain ⟨⟨f, hf⟩, _⟩ := removeSlots_spec hr
      unfold Get
      rw [if_neg hk]
      rw [show ({ st with slots := slots' } : KeyState).slots = slots' from rfl, hf]
    · intro k' hk'
      obtain ⟨_, hpres⟩ := removeSlots_spec hr
      unfold Get
      by_cases hkty : k' = "kty"
      · rw [if_pos hkty, if_pos hkty]
      · rw [if_neg hkty, if_neg hkty]
        rw [show ({ st with slots := slots' } : KeyState).slots = slots' from rfl]
        rw [hpres k' hk']
  | none =>
    refine ⟨_, rfl, ?_, ?_, ?_⟩
    · unfold Get; rw [if_pos rfl]
    · intro hk
      unfold Get
      rw [if_neg hk]
      have hforall := removeSlots_none_forall hr
      rw [getSlots_eq_none hforall]
      cases st.privateParams with
      | none => rfl
      | some l => exact mapLookup_mapErase_self k l
    · intro k' hk'
      unfold Get
      by_cases hkty : k' = "kty"
      · rw [if_pos hkty, if_pos hkty]
      · rw [if_neg hkty, if_neg hkty]
        cases hg : getSlots st.slots k' with
        | some p =>
          cases p with
          | mk f slot => cases slot <;> rfl
        | none =>
          cases st.privateParams with
          | none => rfl
          | some l => exact mapLookup_mapErase_ne (fun he => hk' he.symm) l

/-- C6 witness. -/
theorem c6_remove_witness :
    ∃ st', Remove exNilSt "foo" = .ok st' ∧
      Get exKt st' "kty" = some (ktyVal exKt) ∧
      ("foo" ≠ "kty" → Get exKt st' "foo" = none) ∧
      (∀ k', k' ≠ "foo" → Get exKt st' k' = Get exKt exNilSt k') :=
  c6_remove exKt exNilSt "foo"

/-- C7: resolution of an unrecognized key during decode: the local
(per-decode-context) registry, when attached, is consulted first, and on
success the decoded value is stored via the `Set` path (`setNoLock`); if it
declines or none is attached, the global registry is consulted the same way;
when both decline, decoding fails with an error naming the undecodable
key. -/
theorem c7_decode_fallback (kt : KeyTypeM) (glob : RegistryM) (st : KeyState)
    (k : String) (rv : RawVal) (hk : k ≠ "kty")
    (hf : ∀ p ∈ st.slots, p.1.jsonKey ≠ k) :
    (∀ localReg v, st.dc = some localReg → localReg k rv = .ok v →
      processEntry kt glob st k rv = setNoLock st k v) ∧
    (∀ localReg err v, st.dc = some localReg → localReg k rv = .error err →
      glob k rv = .ok v → processEntry kt glob st k rv = setNoLock st k v) ∧
    (∀ v, st.dc = none → glob k rv = .ok v →
      processEntry kt glob st k rv = setNoLock st k v) ∧
    (∀ localReg errl errg, st.dc = some localReg → localReg k rv = .error errl →
      glob k rv = .error errg →
      processEntry kt glob st k rv =
        .error ("could not decode field " ++ k ++ ": " ++ errg)) ∧
    (∀ errg, st.dc = none → glob k rv = .error errg →
      processEntry kt glob st k rv =
        .error ("could not decode field " ++ k ++ ": " ++ errg)) := by
  have hdec : decodeSlots st.slots k rv = none := decodeSlots_eq_none rv hf
  have hstore : ∀ v, Except.ok (storeDecoded st k v) = setNoLock st k v := by
    intro v
    rw [setNoLock_unrecognized st k v hk hf]
    unfold storeDecoded
    rw [setNoLock_unrecognized st k v hk hf]
  refine ⟨?_, ?_, ?_, ?_, ?_⟩
  · intro localReg v hdc hreg
    simp only [processEntry, if_neg hk, hdec, hdc, hreg]
    exact hstore v
  · intro localReg err v hdc hreg hglob
    simp only [processEntry, if_neg hk, hdec, hdc, hreg, hglob]
    exact hstore v
  · intro v hdc hglob
    simp only [processEntry, if_neg hk, hdec, hdc, hglob]
    exact hstore v
  · intro localReg errl errg hdc hreg hglob
    simp only [processEntry, if_neg hk, hdec, hdc, hreg, hglob]
  · intro errg hdc hglob
    simp only [processEntry, if_neg hk, hdec, hdc, hglob]

/-- Registry that declines every key. -/
def exDeclineReg : RegistryM := fun _ _ => .error "no decoder"

/-- C7 witness: both registries decline (no local registry attached), so the
decode fails naming the key. -/
theorem c7_decode_fallback_witness :
    processEntry exKt exDeclineReg exNilSt "xx" (.str "v") =
      .error ("could not decode field " ++ "xx" ++ ": " ++ "no decoder") :=
  (c7_decode_fallback exKt exDeclineReg exNilSt "xx" (.str "v") (by decide)
    (by simp [exNilSt])).2.2.2.2 "no decoder" rfl rfl

/-- C9: the family-mismatch error of every synthesized `UnmarshalJSON`
literally names `RSAPublicKey` whatever the group: the message is the same
for every `kt`, only the expected discriminator value compared against
(`kt.ktyString`) varies. -/
theorem c9_mismatch_message (kt : KeyTypeM) (glob : RegistryM) (st : KeyState)
    (s : String) (rest : List (String × RawVal)) (hs : s ≠ kt.ktyString) :
    UnmarshalJSON kt glob st (("kty", .str s) :: rest) =
      .error ("invalid kty value for RSAPublicKey (" ++ s ++ ")") := by
  have hpe : processEntry kt glob { st with slots := resetSlots st.slots } "kty" (.str s) =
      .error ("invalid kty value for RSAPublicKey (" ++ s ++ ")") := by
    simp [processEntry, hs]
  unfold UnmarshalJSON processEntries
  rw [hpe]

/-- C9 witness. -/
theorem c9_mismatch_message_witness :
    UnmarshalJSON exKt exDeclineReg exNilSt [("kty", .str "EC")] =
      .error ("invalid kty value for RSAPublicKey (" ++ "EC" ++ ")") :=
  c9_mismatch_message exKt exDeclineReg exNilSt "EC" [] (by decide)

/-- C4 (amended): generic `Get`: the discriminator key always resolves to the
family value as found; an empty static slot reports not-found; a non-empty
static field returns its value's own `Get()` result when the field has
get-with-default behaviour and its boxed/dereferenced value otherwise; any
other key falls through to the extension map. -/
theorem c4_get (kt : KeyTypeM) (st : KeyState) (k : String) :
    (Get kt st "kty" = some (ktyVal kt)) ∧
    (∀ f, k ≠ "kty" → getSlots st.slots k = some (f, none) → Get kt st k = none) ∧
    (∀ f v, k ≠ "kty" → getSlots st.slots k = some (f, some v) →
      Get kt st k = some (if f.hasGet then jGet v else v)) ∧
    (k ≠ "kty" → getSlots st.slots k = none →
      Get kt st k = lookupPP st.privateParams k) := by
  refine ⟨?_, ?_, ?_, ?_⟩
  · unfold Get; rw [if_pos rfl]
  · intro f hk hg
    unfold Get
    rw [if_neg hk, hg]
  · intro f v hk hg
    unfold Get
    rw [if_neg hk, hg]
  · intro hk hg
    unfold Get
    rw [if_neg hk, hg]

/-- Example field with get-with-default behaviour (`hasGet`). -/
def exFieldGD : FieldM :=
  ⟨"X509CertChain", "x509CertChain", "x5c", "CertificateChain", false, true, false, false⟩

/-- Example stored composite whose own `Get()` result differs from the stored
value itself. -/
def exStoredGD : JValue :=
  vComposite "CertificateChain" "chain-enc"
    (some (vComposite "CertArray" "cert-array-enc" none))

/-- Example state holding `exStoredGD` in the `x5c` slot. -/
def exStGD : KeyState := ⟨[(exFieldGD, some exStoredGD)], some [], none⟩

/-- C4 counterexample: for a non-empty get-with-default field the generic
`Get` returns the value's own `Get()` result, which differs from the stored
(dereferenced) value the claim promises. -/
theorem c4_counterexample :
    Get exKt exStGD "x5c" = some (jGet exStoredGD) ∧
      jGet exStoredGD ≠ exStoredGD := by decide

/-- C4 witness. -/
theorem c4_get_witness :
    Get exKt exStGD "x5c" =
      some (if exFieldGD.hasGet then jGet exStoredGD else exStoredGD) :=
  (c4_get exKt exStGD "x5c").2.2.1 exFieldGD exStoredGD (by decide) (by decide)

theorem decodeSlots_none_forall :
    ∀ {slots : List (FieldM × Option JValue)} {k : String} {rv : RawVal},
      decodeSlots slots k rv = none → ∀ p ∈ slots, p.1.jsonKey ≠ k
  | [], _, _, _ => fun p hp => absurd hp (List.not_mem_nil _)
  | (f, slot) :: rest, k, rv, h => by
    simp only [decodeSlots] at h
    by_cases hf : f.jsonKey = k
    · rw [if_pos hf] at h
      exact Option.noConfusion h
    · rw [if_neg hf] at h
      intro p hp
      rcases List.mem_cons.mp hp with he | hm
      · rw [he]; exact hf
      · have hrec : decodeSlots rest k rv = none := by
          cases hr : decodeSlots rest k rv with
          | none => rfl
          | some l => rw [hr] at h; exact Option.noConfusion h
        exact decodeSlots_none_forall hrec p hm

/-- Effect of the discarded-`Set` storage step on the slots and decode
context: when the key matches no static field, only the extension map
changes. -/
theorem storeDecoded_unrecognized (st : KeyState) (k : String) (v : JValue)
    (hk : k ≠ "kty") (hf : ∀ p ∈ st.slots, p.1.jsonKey ≠ k) :
    storeDecoded st k v =
      { st with privateParams := some (mapInsert k v (ppList st.privateParams)) } := by
  unfold storeDecoded
  rw [setNoLock_unrecognized st k v hk hf]

theorem processEntry_kty_str (kt : KeyTypeM) (glob : RegistryM) (st : KeyState)
    (s : String) :
    processEntry kt glob st "kty" (.str s) =
      if s = kt.ktyString then .ok st
      else .error ("invalid kty value for RSAPublicKey (" ++ s ++ ")") := rfl

theorem processEntry_kty_comp (kt : KeyTypeM) (glob : RegistryM) (st : KeyState)
    (tag e : String) :
    processEntry kt glob st "kty" (.comp tag e) =
      .error "error reading token: expected string value for kty" := rfl

theorem processEntry_congr (kt : KeyTypeM) (glob : RegistryM) {s₁ s₂ : KeyState}
    (hs : s₁.slots = s₂.slots) (hdc : s₁.dc = s₂.dc) (k : String) (rv : RawVal) :
    (∀ err, processEntry kt glob s₁ k rv = .error err →
      processEntry kt glob s₂ k rv = .error err) ∧
    (∀ r₁, processEntry kt glob s₁ k rv = .ok r₁ →
      ∃ r₂, processEntry kt glob s₂ k rv = .ok r₂ ∧
        r₁.slots = r₂.slots ∧ r₁.dc = r₂.dc) := by
  by_cases hk : k = "kty"
  · subst hk
    constructor
    · intro err h
      cases rv with
      | str s =>
        rw [processEntry_kty_str] at h ⊢
        by_cases hsv : s = kt.ktyString
        · rw [if_pos hsv] at h
          exact Except.noConfusion h
        · rw [if_neg hsv] at h ⊢
          exact h
      | comp tag e =>
        rw [processEntry_kty_comp] at h ⊢
        exact h
    · intro r₁ h
      cases rv with
      | str s =>
        rw [processEntry_kty_str] at h ⊢
        by_cases hsv : s = kt.ktyString
        · rw [if_pos hsv] at h ⊢
          injection h with h
          exact ⟨s₂, rfl, h ▸ hs, h ▸ hdc⟩
        · rw [if_neg hsv] at h
          exact Except.noConfusion h
      | comp tag e =>
        rw [processEntry_kty_comp] at h
        exact Except.noConfusion h
  · cases hds : decodeSlots s₂.slots k rv with
    | some res =>
      cases res with
      | ok slots' =>
        constructor
        · intro err h
          simp only [processEntry, if_neg hk, hs, hds] at h
          exact Except.noConfusion h
        · intro r₁ h
          simp only [processEntry, if_neg hk, hs, hds] at h
          injection h with h
          refine ⟨{ s₂ with slots := slots' }, ?_, ?_, ?_⟩
          · simp only [processEntry, if_neg hk, hds]
          · rw [← h]
          · rw [← h]
            exact hdc
      | error e =>
        constructor
        · intro err h
          simp only [processEntry, if_neg hk, hs, hds] at h
          simp only [processEntry, if_neg hk, hds]
          exact h
        · intro r₁ h
          simp only [processEntry, if_neg hk, hs, hds] at h
          exact Except.noConfusion h
    | none =>
      have hfor : ∀ p ∈ s₂.slots, p.1.jsonKey ≠ k := decodeSlots_none_forall hds
      have hfor₁ : ∀ p ∈ s₁.slots, p.1.jsonKey ≠ k := hs ▸ hfor
      have hstore : ∀ v, (storeDecoded s₁ k v).slots = (storeDecoded s₂ k v).slots ∧
          (storeDecoded s₁ k v).dc = (storeDecoded s₂ k v).dc := by
        intro v
        rw [storeDecoded_unrecognized s₁ k v hk hfor₁,
          storeDecoded_unrecognized s₂ k v hk hfor]
        exact ⟨hs, hdc⟩
      cases hd2 : s₂.dc with
      | some localReg =>
        cases hreg : localReg k rv with
        | ok v =>
          constructor
          · intro err h
            simp only [processEntry, if_neg hk, hs, hdc, hds, hd2, hreg] at h
            exact Except.noConfusion h
          · intro r₁ h
            simp only [processEntry, if_neg hk, hs, hdc, hds, hd2, hreg] at h
            injection h with h
            refine ⟨storeDecoded s₂ k v, ?_, ?_, ?_⟩
            · simp only [processEntry, if_neg hk, hds, hd2, hreg]
            · rw [← h]
              exact (hstore v).1
            · rw [← h]
              exact (hstore v).2
        | error e =>
          cases hglob : glob k rv with
          | ok v =>
            constructor
            · intro err h
              simp only [processEntry, if_neg hk, hs, hdc, hds, hd2, hreg, hglob] at h
              exact Except.noConfusion h
            · intro r₁ h
              simp only [processEntry, if_neg hk, hs, hdc, hds, hd2, hreg, hglob] at h
              injection h with h
              refine ⟨storeDecoded s₂ k v, ?_, ?_, ?_⟩
              · simp only [processEntry, if_neg hk, hds, hd2, hreg, hglob]
              · rw [← h]
                exact (hstore v).1
              · rw [← h]
                exact (hstore v).2
          | error eg =>
            constructor
            · intro err h
              simp only [processEntry, if_neg hk, hs, hdc, hds, hd2, hreg, hglob] at h
              simp only [processEntry, if_neg hk, hds, hd2, hreg, hglob]
              exact h
            · intro r₁ h
              simp only [processEntry, if_neg hk, hs, hdc, hds, hd2, hreg, hglob] at h
              exact Except.noConfusion h
      | none =>
        cases hglob : glob k rv with
        | ok v =>
          constructor
          · intro err h
            simp only [processEntry, if_neg hk, hs, hdc, hds, hd2, hglob] at h
            exact Except.noConfusion h
          · intro r₁ h
            simp only [processEntry, if_neg hk, hs, hdc, hds, hd2, hglob] at h
            injection h with h
            refine ⟨storeDecoded s₂ k v, ?_, ?_, ?_⟩
            · simp only [processEntry, if_neg hk, hds, hd2, hglob]
            · rw [← h]
              exact (hstore v).1
            · rw [← h]
              exact (hstore v).2
        | error eg =>
          constructor
          · intro err h
            simp only [processEntry, if_neg hk, hs, hdc, hds, hd2, hglob] at h
            simp only [processEntry, if_neg hk, hds, hd2, hglob]
            exact h
          · intro r₁ h
            simp only [processEntry, if_neg hk, hs, hdc, hds, hd2, hglob] at h
            exact Except.noConfusion h

theorem processEntries_congr (kt : KeyTypeM) (glob : RegistryM) :
    ∀ (entries : List (String × RawVal)) (s₁ s₂ : KeyState),
      s₁.slots = s₂.slots → s₁.dc = s₂.dc →
      (∀ err, processEntries kt glob s₁ entries = .error err →
        processEntries kt glob s₂ entries = .error err) ∧
      (∀ r₁, processEntries kt glob s₁ entries = .ok r₁ →
        ∃ r₂, processEntries kt glob s₂ entries = .ok r₂ ∧
          r₁.slots = r₂.slots ∧ r₁.dc = r₂.dc)
  | [], s₁, s₂, hs, hdc => by
    constructor
    · intro err h
      exact Except.noConfusion h
    · intro r₁ h
      injection h with h
      exact ⟨s₂, rfl, h ▸ hs, h ▸ hdc⟩
  | (k, rv) :: rest, s₁, s₂, hs, hdc => by
    simp only [processEntries]
    obtain ⟨herr, hok⟩ := processEntry_congr kt glob hs hdc k rv
    cases hpe : processEntry kt glob s₁ k rv with
    | error err =>
      rw [herr err hpe]
      exact ⟨fun _ h => h, fun r₁ h => Except.noConfusion h⟩
    | ok s₁' =>
      obtain ⟨s₂', hpe₂, hs', hdc'⟩ := hok s₁' hpe
      rw [hpe₂]
      exact processEntries_congr kt glob rest _ _ hs' hdc'

theorem processEntry_pp (kt : KeyTypeM) (glob : RegistryM) {st r : KeyState}
    {k' : String} {rv : RawVal} (h : processEntry kt glob st k' rv = .ok r)
    (k : String) (hk : k ≠ k') :
    lookupPP r.privateParams k = lookupPP st.privateParams k := by
  by_cases hkty : k' = "kty"
  · subst hkty
    cases rv with
    | str s =>
      rw [processEntry_kty_str] at h
      by_cases hsv : s = kt.ktyString
      · rw [if_pos hsv] at h
        injection h with h
        rw [h]
      · rw [if_neg hsv] at h
        exact Except.noConfusion h
    | comp tag e =>
      rw [processEntry_kty_comp] at h
      exact Except.noConfusion h
  · cases hds : decodeSlots st.slots k' rv with
    | some res =>
      cases res with
      | ok slots' =>
        simp only [processEntry, if_neg hkty, hds] at h
        injection h with h
        rw [← h]
      | error err =>
        simp only [processEntry, if_neg hkty, hds] at h
        exact Except.noConfusion h
    | none =>
      have hfor : ∀ p ∈ st.slots, p.1.jsonKey ≠ k' := decodeSlots_none_forall hds
      have hstore : ∀ v, lookupPP (storeDecoded st k' v).privateParams k =
          lookupPP st.privateParams k := by
        intro v
        rw [storeDecoded_unrecognized st k' v hkty hfor]
        show mapLookup k (mapInsert k' v (ppList st.privateParams)) =
          lookupPP st.privateParams k
        rw [mapLookup_mapInsert_ne hk]
        rfl
      cases hd2 : st.dc with
      | some localReg =>
        cases hreg : localReg k' rv with
        | ok v =>
          simp only [processEntry, if_neg hkty, hds, hd2, hreg] at h
          injection h with h
          rw [← h]
          exact hstore v
        | error e =>
          cases hglob : glob k' rv with
          | ok v =>
            simp only [processEntry, if_neg hkty, hds, hd2, hreg, hglob] at h
            injection h with h
            rw [← h]
            exact hstore v
          | error eg =>
            simp only [processEntry, if_neg hkty, hds, hd2, hreg, hglob] at h
            exact Except.noConfusion h
      | none =>
        cases hglob : glob k' rv with
        | ok v =>
          simp only [processEntry, if_neg hkty, hds, hd2, hglob] at h
          injection h with h
          rw [← h]
          exact hstore v
        | error eg =>
          simp only [processEntry, if_neg hkty, hds, hd2, hglob] at h
          exact Except.noConfusion h

theorem processEntries_pp (kt : KeyTypeM) (glob : RegistryM) :
    ∀ (entries : List (String × RawVal)) {st r : KeyState},
      processEntries kt glob st entries = .ok r →
      ∀ k, k ∉ entries.map Prod.fst →
        lookupPP r.privateParams k = lookupPP st.privateParams k
  | [], st, r, h, k, _ => by
    injection h with h
    rw [h]
  | (k', rv) :: rest, st, r, h, k, hmem => by
    simp only [processEntries] at h
    simp only [List.map_cons, List.mem_cons] at hmem
    push_neg at hmem
    cases hpe : processEntry kt glob st k' rv with
    | error err =>
      rw [hpe] at h
      exact Except.noConfusion h
    | ok st' =>
      rw [hpe] at h
      rw [processEntries_pp kt glob rest h k hmem.2]
      exact processEntry_pp kt glob hpe k hmem.1

theorem resetSlots_congr {s₁ s₂ : List (FieldM × Option JValue)}
    (h : s₁.map Prod.fst = s₂.map Prod.fst) : resetSlots s₁ = resetSlots s₂ := by
  have haux : ∀ s : List (FieldM × Option JValue),
      resetSlots s = (s.map Prod.fst).map (fun f => (f, (none : Option JValue))) := by
    intro s
    unfold resetSlots
    rw [List.map_map]
    rfl
  rw [haux, haux, h]

/-- C5 (amended): a full decode first resets every static slot, and the
static fields of the result are populated purely from the payload: two
objects of the same variant and decode context decode to identical static
slots whatever their prior contents.  The extension map, however, is only
updated per decoded key, so entries under keys the payload does not name
survive the decode (a decode merges into the prior extension map rather than
replacing it). -/
theorem c5_decode_semantics (kt : KeyTypeM) (glob : RegistryM) :
    (∀ (st₁ st₂ : KeyState) (entries : List (String × RawVal)) (r₁ r₂ : KeyState),
      st₁.slots.map Prod.fst = st₂.slots.map Prod.fst → st₁.dc = st₂.dc →
      UnmarshalJSON kt glob st₁ entries = .ok r₁ →
      UnmarshalJSON kt glob st₂ entries = .ok r₂ → r₁.slots = r₂.slots) ∧
    (∀ (st r : KeyState) (entries : List (String × RawVal)),
      UnmarshalJSON kt glob st entries = .ok r →
      ∀ k, k ∉ entries.map Prod.fst →
        lookupPP r.privateParams k = lookupPP st.privateParams k) := by
  constructor
  · intro st₁ st₂ entries r₁ r₂ hfs hdc h₁ h₂
    unfold UnmarshalJSON at h₁ h₂
    cases hp₁ : processEntries kt glob { st₁ with slots := resetSlots st₁.slots } entries with
    | error err =>
      simp only [hp₁] at h₁
      exact Except.noConfusion h₁
    | ok m₁ =>
      cases hp₂ : processEntries kt glob { st₂ with slots := resetSlots st₂.slots } entries with
      | error err =>
        simp only [hp₂] at h₂
        exact Except.noConfusion h₂
      | ok m₂ =>
        simp only [hp₁] at h₁
        simp only [hp₂] at h₂
        have hr₁ : r₁ = m₁ := by
          cases hc : checkRequired m₁.slots with
          | error err =>
            simp only [hc] at h₁
            exact Except.noConfusion h₁
          | ok u =>
            simp only [hc] at h₁
            injection h₁ with h₁
            exact h₁.symm
        have hr₂ : r₂ = m₂ := by
          cases hc : checkRequired m₂.slots with
          | error err =>
            simp only [hc] at h₂
            exact Except.noConfusion h₂
          | ok u =>
            simp only [hc] at h₂
            injection h₂ with h₂
            exact h₂.symm
        obtain ⟨_, hok⟩ := processEntries_congr kt glob entries
          { st₁ with slots := resetSlots st₁.slots }
          { st₂ with slots := resetSlots st₂.slots }
          (resetSlots_congr hfs) hdc
        obtain ⟨m₂', hp₂', hslots, _⟩ := hok m₁ hp₁
        rw [hp₂'] at hp₂
        injection hp₂ with hp₂
        rw [hr₁, hr₂, ← hp₂]
        exact hslots
  · intro st r entries h k hmem
    unfold UnmarshalJSON at h
    cases hp : processEntries kt glob { st with slots := resetSlots st.slots } entries with
    | error err =>
      simp only [hp] at h
      exact Except.noConfusion h
    | ok m =>
      simp only [hp] at h
      have hr : r = m := by
        cases hc : checkRequired m.slots with
        | error err =>
          simp only [hc] at h
          exact Except.noConfusion h
        | ok u =>
          simp only [hc] at h
          injection h with h
          exact h.symm
      rw [hr]
      exact processEntries_pp kt glob entries hp k hmem

/-- Extension map of a decode result (`none` on failure). -/
def ppOfResult : Except String KeyState → Option (List (String × JValue))
  | .ok r => r.privateParams
  | .error _ => none

/-- Static slots of a decode result (empty on failure). -/
def slotsOfResult : Except String KeyState → List (FieldM × Option JValue)
  | .ok r => r.slots
  | .error _ => []

/-- Example object state carrying a stale extension entry and a filled static
slot before a decode. -/
def exStaleSt : KeyState :=
  ⟨[(exF1, some (vBytes [1, 2]))], some [("foo", vStr "bar")], none⟩

/-- C5 counterexample: decoding a `kty`-only payload into an object carrying
a stale extension entry `foo` succeeds, resets the static slot, and the
result still holds `foo`, whereas the same decode into a freshly constructed
object of the variant yields no `foo`: the result is not equivalent to a
freshly constructed object populated purely from the payload. -/
theorem c5_counterexample :
    lookupPP (ppOfResult (UnmarshalJSON exKt exDeclineReg exStaleSt [("kty", .str "RSA")]))
        "foo" = some (vStr "bar") ∧
    lookupPP (ppOfResult (UnmarshalJSON exKt exDeclineReg (newKey [exF1])
        [("kty", .str "RSA")])) "foo" = none ∧
    slotsOfResult (UnmarshalJSON exKt exDeclineReg exStaleSt [("kty", .str "RSA")]) =
      [(exF1, none)] := by decide

/-- Concrete decode result of `exStaleSt`. -/
def exC5Res1 : KeyState := ⟨[(exF1, none)], some [("foo", vStr "bar")], none⟩

/-- Concrete decode result of the fresh object. -/
def exC5Res2 : KeyState := ⟨[(exF1, none)], some [], none⟩

theorem mapLookup_reverse_of_nodup {k : String} :
    ∀ {ps : List (String × JValue)}, (ps.map Prod.fst).Nodup →
      mapLookup k ps.reverse = mapLookup k ps
  | [], _ => rfl
  | (k', v) :: rest, h => by
    simp only [List.map_cons, List.nodup_cons] at h
    simp only [List.reverse_cons]
    rw [mapLookup_append k]
    by_cases hk : k' = k
    · subst hk
      have hnone : mapLookup k' rest = none := mapLookup_eq_none h.1
      have hnone' : mapLookup k' rest.reverse = none := by
        apply mapLookup_eq_none
        intro hmem
        apply h.1
        rw [List.map_reverse, List.mem_reverse] at hmem
        exact hmem
      rw [hnone']
      simp [mapLookup]
    · rw [mapLookup_reverse_of_nodup h.2]
      cases hr : mapLookup k rest with
      | some w =>
        simp only [mapLookup]
        rw [if_neg hk, hr]
      | none =>
        simp [mapLookup, hk, hr]

theorem mapLookup_foldl_insert (k : String) :
    ∀ (ps : List (String × JValue)) (acc : List (String × JValue)),
      mapLookup k (ps.foldl (fun m p => mapInsert p.1 p.2 m) acc) =
        match mapLookup k ps.reverse with
        | some v => some v
        | none => mapLookup k acc
  | [], acc => rfl
  | (k', v) :: rest, acc => by
    simp only [List.foldl_cons, List.reverse_cons]
    rw [mapLookup_foldl_insert k rest (mapInsert k' v acc)]
    rw [mapLookup_append k]
    cases hr : mapLookup k rest.reverse with
    | some w => rfl
    | none =>
      by_cases hk : k' = k
      · subst hk
        rw [mapLookup_mapInsert_self]
        simp [mapLookup]
      · rw [mapLookup_mapInsert_ne (fun he => hk he.symm) v acc]
        simp [mapLookup, hk]

theorem mapLookup_buildData {k : String} {ps : List (String × JValue)}
    (h : (ps.map Prod.fst).Nodup) : mapLookup k (buildData ps) = mapLookup k ps := by
  unfold buildData
  rw [mapLookup_foldl_insert]
  rw [mapLookup_reverse_of_nodup h]
  cases hr : mapLookup k ps with
  | some w => rfl
  | none => rfl

theorem mapLookup_perm {ps₁ ps₂ : List (String × JValue)} (hp : ps₁.Perm ps₂)
    (hn : (ps₁.map Prod.fst).Nodup) (k : String) :
    mapLookup k ps₁ = mapLookup k ps₂ := by
  induction hp with
  | nil => rfl
  | cons x h ih =>
    simp only [List.map_cons, List.nodup_cons] at hn
    cases x with
    | mk k' v =>
      simp only [mapLookup]
      by_cases hk : k' = k
      · rw [if_pos hk, if_pos hk]
      · rw [if_neg hk, if_neg hk]
        exact ih hn.2
  | swap x y l =>
    cases x with
    | mk kx vx =>
      cases y with
      | mk ky vy =>
        simp only [List.map_cons, List.nodup_cons, List.mem_cons] at hn
        have hne : ky ≠ kx := fun he => hn.1 (Or.inl he)
        simp only [mapLookup]
        by_cases h1 : ky = k
        · rw [if_pos h1]
          rw [if_neg (fun h2 : kx = k => hne (h1.trans h2.symm))]
          rw [if_pos h1]
        · rw [if_neg h1]
          by_cases h2 : kx = k
          · rw [if_pos h2, if_pos h2]
          · rw [if_neg h2, if_neg h2, if_neg h1]
  | trans h₁ h₂ ih₁ ih₂ =>
    rw [ih₁ hn, ih₂ ((h₁.map _).nodup hn)]

/-- C1: `MarshalJSON` is canonical.  The pair list is the discriminator pair,
the non-empty static fields, then the extension entries (`makePairs`); the
output emits the keys in sorted order with the values of the key-to-value
map, byte sequences rendered as quoted base64 text.  Consequently two objects
of one variant whose pair lists hold the same key/value set (in any order,
keys distinct per the object invariant) marshal to byte-identical output. -/
theorem c1_marshal_canonical :
    (∀ (kt : KeyTypeM) (st₁ st₂ : KeyState),
      ((makePairs kt st₁).map Prod.fst).Nodup →
      (makePairs kt st₁).Perm (makePairs kt st₂) →
      MarshalJSON kt st₁ = MarshalJSON kt st₂) ∧
    (∀ (data : List (String × JValue)) (f : String) (bs : List Nat),
      mapLookup f data = some (vBytes bs) →
      renderEntry data f = jsonQuote f ++ ":" ++ jsonQuote (b64encode bs)) := by
  constructor
  · intro kt st₁ st₂ hn hp
    have hkeys : ((makePairs kt st₁).map Prod.fst).Perm
        ((makePairs kt st₂).map Prod.fst) := hp.map _
    have hn₂ : ((makePairs kt st₂).map Prod.fst).Nodup := hkeys.nodup hn
    have hfields : sortStrings ((makePairs kt st₁).map Prod.fst) =
        sortStrings ((makePairs kt st₂).map Prod.fst) := by
      apply List.eq_of_perm_of_sorted (r := strLe)
      · exact (List.perm_insertionSort strLe _).trans
          (hkeys.trans (List.perm_insertionSort strLe _).symm)
      · exact List.sorted_insertionSort strLe _
      · exact List.sorted_insertionSort strLe _
    unfold MarshalJSON
    rw [hfields]
    have hmap : (sortStrings ((makePairs kt st₂).map Prod.fst)).map
          (renderEntry (buildData (makePairs kt st₁))) =
        (sortStrings ((makePairs kt st₂).map Prod.fst)).map
          (renderEntry (buildData (makePairs kt st₂))) := by
      apply List.map_congr_left
      intro f _
      unfold renderEntry
      rw [mapLookup_buildData hn, mapLookup_buildData hn₂, mapLookup_perm hp hn]
    rw [hmap]
  · intro data f bs h
    unfold renderEntry
    rw [h]
    rfl

/-- First state of the C1 witness: extension entries in one order. -/
def exStC1a : KeyState :=
  ⟨[(exF1, some (vBytes [1, 2]))], some [("a", vStr "1"), ("b", vStr "2")], none⟩

/-- Second state of the C1 witness: the same entries in the other order. -/
def exStC1b : KeyState :=
  ⟨[(exF1, some (vBytes [1, 2]))], some [("b", vStr "2"), ("a", vStr "1")], none⟩

/-- C1 witness. -/
theorem c1_marshal_canonical_witness :
    MarshalJSON exKt exStC1a = MarshalJSON exKt exStC1b ∧
    renderEntry [("n", vBytes [1, 2])] "n" =
      jsonQuote "n" ++ ":" ++ jsonQuote (b64encode [1, 2]) :=
  ⟨c1_marshal_canonical.1 exKt exStC1a exStC1b (by decide) (by decide),
    c1_marshal_canonical.2 [("n", vBytes [1, 2])] "n" [1, 2] (by decide)⟩

/-- C5 witness. -/
theorem c5_decode_semantics_witness :
    exC5Res1.slots = exC5Res2.slots ∧
    lookupPP exC5Res1.privateParams "baz" = lookupPP exStaleSt.privateParams "baz" :=
  ⟨(c5_decode_semantics exKt exDeclineReg).1 exStaleSt (newKey [exF1])
      [("kty", .str "RSA")] exC5Res1 exC5Res2 (by decide) rfl rfl rfl,
    (c5_decode_semantics exKt exDeclineReg).2 exStaleSt exC5Res1
      [("kty", .str "RSA")] rfl "baz" (by decide)⟩

end GenJWK
